import Mathlib

/-!
Verification of the noise-injection + perturbed-ensemble inference core of
NoiseShieldAI (src/app.py), shallowly embedded in Lean 4.

Floating-point arithmetic of the source is modelled over the reals; one
auxiliary model (`NpF`) tracks NaN propagation for the empty-ensemble case.
numpy arrays are modelled as lists of reals; the numpy random generator is
abstracted by the stream of standard-normal draws it produces, indexed by
its seed.
-/

/-- StandardScaler attributes used by the source: per-feature mean and scale
vectors (fields mean_ and scale_). -/
structure StandardScaler where
  mean : List ℝ
  scale : List ℝ

/-- LogisticRegression attributes used by the source: classes_, coef_
(one row, modelled as a vector) and intercept_ (one entry, a scalar). -/
structure LogisticRegression where
  classes : List ℤ
  coef : List ℝ
  intercept : ℝ

/-- Fitted sklearn pipeline of a StandardScaler followed by a
LogisticRegression, as accessed through named_steps in the source. -/
structure Pipeline where
  scaler : StandardScaler
  lr : LogisticRegression

/-- Loop body of make_submodels_from for one index k with
factor = 1 + (k-1)*eps: coef and intercept are scaled by the factor, the
classes and the scaler attributes are carried over from the base. -/
def perturb (base : Pipeline) (factor : ℝ) : Pipeline :=
  { scaler := { mean := base.scaler.mean, scale := base.scaler.scale }
    lr := { classes := base.lr.classes
            coef := base.lr.coef.map (fun c => c * factor)
            intercept := base.lr.intercept * factor } }

/-- make_submodels_from(base_lr, eps, n) from src/app.py: for
k in range(n), build a pipeline whose logistic regression has
coef_ * (1 + (k-1)*eps) and intercept_ * (1 + (k-1)*eps) and whose scaler
has copies of the base scaler mean_ and scale_. -/
def make_submodels_from (base : Pipeline) (eps : ℝ) (n : ℕ) : List Pipeline :=
  (List.range n).map (fun (k : ℕ) => perturb base (1 + ((k : ℝ) - 1) * eps))

/-- make_submodels_from called with its default arguments eps=0.03, n=3
(the defaults in the source signature). -/
def make_submodels_from_default (base : Pipeline) : List Pipeline :=
  make_submodels_from base 0.03 3

/-- Concrete fitted pipeline used as a test fixture: a single feature with
mean 0, scale 1, coefficient 2 and intercept 1. -/
def cbase : Pipeline :=
  { scaler := { mean := [0], scale := [1] }
    lr := { classes := [0, 1], coef := [2], intercept := 1 } }

/-- Logistic sigmoid, the probability of the positive class produced by a
logistic regression at score z. -/
noncomputable def sigmoid (z : ℝ) : ℝ := 1 / (1 + Real.exp (-z))

/-- predict_proba(X_row)[0,1] of a fitted scaler+logistic pipeline on one
feature vector: standardize each feature with the scaler mean and scale,
take the linear score coef . x_std + intercept, and apply the sigmoid. -/
noncomputable def predict_proba1 (p : Pipeline) (x : List ℝ) : ℝ :=
  let xstd := List.zipWith (fun xi ms => (xi - ms.1) / ms.2) x (p.scaler.mean.zip p.scaler.scale)
  sigmoid ((List.zipWith (fun c v => c * v) p.lr.coef xstd).sum + p.lr.intercept)

/-- Mean of a list of reals, as numpy computes it: sum divided by length. -/
noncomputable def listMean (l : List ℝ) : ℝ := l.sum / l.length

/-- np.var(l): the population variance, computed as the mean of the squared
deviations from the mean. -/
noncomputable def npVar (l : List ℝ) : ℝ :=
  listMean (l.map (fun x => (x - listMean l) ^ 2))

/-- Population variance written independently of the source, as the mean of
the squares minus the square of the mean. -/
noncomputable def popVar (l : List ℝ) : ℝ :=
  (l.map (fun x => x ^ 2)).sum / l.length - (l.sum / l.length) ^ 2

/-- Gaussian kernel used by the aggregator on the distance of p from mu,
with the fixed bandwidth 0.0025 of the source. -/
noncomputable def gaussKernel (mu p : ℝ) : ℝ :=
  Real.exp (-(p - mu) ^ 2 / (2 * 0.0025))

/-- Core of ensemble_predict_proba on the list of member probabilities:
variance-gated weighting and the weighted sum. Returns
(combined, weights, variance). -/
noncomputable def aggregate_probs (probs : List ℝ) : ℝ × List ℝ × ℝ :=
  let var := npVar probs
  if var > 0.02 then
    let w := probs.map (fun _ => 1 / (probs.length : ℝ))
    ((List.zipWith (fun a b => a * b) w probs).sum, w, var)
  else
    let centered := probs.map (fun p => Real.exp (-(p - listMean probs) ^ 2 / (2 * 0.0025)))
    let w := centered.map (fun c => c / centered.sum)
    ((List.zipWith (fun a b => a * b) w probs).sum, w, var)

/-- ensemble_predict_proba(submodels, X_row) from src/app.py: member
probabilities via predict_proba, np.var gate at 0.02, uniform weights in the
high-variance branch, normalized Gaussian-kernel weights otherwise, and the
weighted sum w @ probs. Returns (combined, probs, weights, variance). -/
noncomputable def ensemble_predict_proba (submodels : List Pipeline) (xrow : List ℝ) :
    ℝ × List ℝ × List ℝ × ℝ :=
  let probs := submodels.map (fun m => predict_proba1 m xrow)
  let r := aggregate_probs probs
  (r.1, probs, r.2.1, r.2.2)

/-- Models np.random.default_rng(seed): the generator is identified by its
seed; its standard-normal draw stream is abstracted elsewhere. -/
def seed_rng (seed : ℕ) : ℕ := seed

/-- Element-wise x_i * (1 + scale * g_i) over a list, where g is the stream
of standard-normal draws and i counts from the given start index; models
X * (1.0 + rng.normal(0, scale, size=X.shape)), a normal draw with standard
deviation scale being scale times a standard-normal draw. -/
noncomputable def noiseMap (scale : ℝ) (g : ℕ → ℝ) : ℕ → List ℝ → List ℝ
  | _, [] => []
  | i, x :: xs => x * (1 + scale * g i) :: noiseMap scale g (i + 1) xs

/-- inject_noise(X, pct, rng) from src/app.py: for pct <= 0 return X.copy()
(the same values in a fresh array); otherwise draw per-element normals with
standard deviation pct/100 from rng, or from seed_rng(123) when rng is None,
and multiply element-wise. gauss abstracts the numpy generator: gauss s i is
the i-th standard-normal draw of the generator seeded with s. -/
noncomputable def inject_noise (gauss : ℕ → ℕ → ℝ) (X : List ℝ) (pct : ℝ)
    (rng : Option ℕ) : List ℝ :=
  if pct ≤ 0 then X
  else noiseMap (pct / 100) (gauss (rng.getD (seed_rng 123))) 0 X

/-- IEEE-style value of a numpy float64 computation restricted to what the
aggregator reaches: either NaN or a finite real. (Infinities never arise in
the traced paths; the only division by zero reached is 0/0, which is NaN.) -/
inductive NpF where
  | nan : NpF
  | fin : ℝ → NpF

/-- Addition with NaN propagation. -/
noncomputable def addF : NpF → NpF → NpF
  | NpF.fin a, NpF.fin b => NpF.fin (a + b)
  | _, _ => NpF.nan

/-- Subtraction with NaN propagation. -/
noncomputable def subF : NpF → NpF → NpF
  | NpF.fin a, NpF.fin b => NpF.fin (a - b)
  | _, _ => NpF.nan

/-- Multiplication with NaN propagation. -/
noncomputable def mulF : NpF → NpF → NpF
  | NpF.fin a, NpF.fin b => NpF.fin (a * b)
  | _, _ => NpF.nan

/-- Division with NaN propagation; division by zero yields NaN (the only
zero-divisor division the aggregator reaches is 0/0, NaN in IEEE). -/
noncomputable def divF : NpF → NpF → NpF
  | NpF.fin a, NpF.fin b => if b = 0 then NpF.nan else NpF.fin (a / b)
  | _, _ => NpF.nan

/-- Negation with NaN propagation. -/
noncomputable def negF : NpF → NpF
  | NpF.fin a => NpF.fin (-a)
  | NpF.nan => NpF.nan

/-- Squaring with NaN propagation. -/
noncomputable def sqF (x : NpF) : NpF := mulF x x

/-- Exponential with NaN propagation (exp of NaN is NaN). -/
noncomputable def expF : NpF → NpF
  | NpF.fin a => NpF.fin (Real.exp a)
  | NpF.nan => NpF.nan

/-- Comparison x > c: false whenever x is NaN, as in IEEE. -/
noncomputable def gtF : NpF → ℝ → Bool
  | NpF.nan, _ => false
  | NpF.fin a, c => decide (a > c)

/-- np.sum over a list of NpF values; the empty sum is 0.0. -/
noncomputable def sumF (l : List NpF) : NpF := l.foldr addF (NpF.fin 0)

/-- len of a numpy array as an NpF value. -/
def lenF (l : List NpF) : NpF := NpF.fin l.length

/-- Mean of a numpy array: sum divided by length; NaN (0/0) on an empty
array, as numpy warns-and-returns. -/
noncomputable def meanF (l : List NpF) : NpF := divF (sumF l) (lenF l)

/-- np.var with NaN propagation: mean of squared deviations from the mean. -/
noncomputable def npVarF (l : List NpF) : NpF :=
  meanF (l.map (fun p => sqF (subF p (meanF l))))

/-- Dot product w @ probs; 0.0 on empty arrays. -/
noncomputable def dotF (w probs : List NpF) : NpF := sumF (List.zipWith mulF w probs)

/-- ensemble_predict_proba traced in the NaN-tracking float model, taking
the member probabilities directly (on an empty submodel list the member
probability array is empty). Mirrors src/app.py line by line: np.var, the
0.02 gate, np.ones_like/len or the exp kernel over deviations from the
mean normalized by its sum, then w @ probs. -/
noncomputable def ensemble_predict_probaF (probs : List NpF) :
    NpF × List NpF × List NpF × NpF :=
  let var := npVarF probs
  if gtF var 0.02 then
    let w := probs.map (fun _ => divF (NpF.fin 1) (lenF probs))
    (dotF w probs, probs, w, var)
  else
    let centered := probs.map (fun p => expF (divF (negF (sqF (subF p (meanF probs)))) (NpF.fin (2 * 0.0025))))
    let w := centered.map (fun c => divF c (sumF centered))
    (dotF w probs, probs, w, var)

/-- Store of numpy arrays addressed by natural-number references, with a
bump allocator: addresses below next are allocated. Models Python object
identity for the mutable scaler attribute arrays. -/
structure Store where
  next : ℕ
  mem : ℕ → List ℝ

/-- Read the array behind a reference. -/
def readA (s : Store) (r : ℕ) : List ℝ := s.mem r

/-- In-place mutation of the array behind a reference (models assigning new
contents to an existing numpy array). -/
def writeA (s : Store) (r : ℕ) (v : List ℝ) : Store :=
  { next := s.next, mem := fun q => if q = r then v else s.mem q }

/-- Allocate a fresh array holding v (models ndarray.copy()): returns the
extended store and the fresh reference. -/
def allocA (s : Store) (v : List ℝ) : Store × ℕ :=
  ({ next := s.next + 1, mem := fun q => if q = s.next then v else s.mem q }, s.next)

/-- Pipeline whose scaler attribute arrays live in the store: mean_ and
scale_ are references; coef and intercept are plain values (the source
builds fresh coef/intercept arrays for every member via multiplication). -/
structure HPipeline where
  meanRef : ℕ
  scaleRef : ℕ
  classes : List ℤ
  coef : List ℝ
  intercept : ℝ

/-- Loop of make_submodels_from in the store model: for each k, allocate
copies of the base scaler mean_ and scale_ (the .copy() calls in the
source) and build the member with factor 1 + (k-1)*eps. Recurses on the
remaining member count m with current index k. -/
def buildMembers (base : HPipeline) (eps : ℝ) : ℕ → ℕ → Store → Store × List HPipeline
  | _, 0, s => (s, [])
  | k, m + 1, s =>
    let factor := 1 + ((k : ℝ) - 1) * eps
    let a1 := allocA s (readA s base.meanRef)
    let a2 := allocA a1.1 (readA a1.1 base.scaleRef)
    let member : HPipeline :=
      { meanRef := a1.2, scaleRef := a2.2, classes := base.classes
        coef := base.coef.map (fun c => c * factor), intercept := base.intercept * factor }
    let rest := buildMembers base eps (k + 1) m a2.1
    (rest.1, member :: rest.2)

/-- make_submodels_from in the store model: n members starting at k = 0. -/
def make_submodels_heap (s : Store) (base : HPipeline) (eps : ℝ) (n : ℕ) :
    Store × List HPipeline :=
  buildMembers base eps 0 n s

/-- predict_proba of a store-model pipeline: dereference its scaler arrays
and evaluate the value-level pipeline. -/
noncomputable def predictH (s : Store) (p : HPipeline) (x : List ℝ) : ℝ :=
  predict_proba1
    { scaler := { mean := readA s p.meanRef, scale := readA s p.scaleRef }
      lr := { classes := p.classes, coef := p.coef, intercept := p.intercept } } x


/-- Helper: the k-th member of make_submodels_from, for k < n. -/
theorem make_submodels_get (base : Pipeline) (eps : ℝ) (n k : ℕ) (hk : k < n) :
    (make_submodels_from base eps n).get? k =
      some (perturb base (1 + ((k : ℝ) - 1) * eps)) := by
  rw [make_submodels_from, List.get?_map, List.get?_range hk, Option.map_some']

/-- C2 (amended): member k of make_submodels_from is the base pipeline with
factor 1 + (k-1)*eps, for every eps and count: its weight vector is
coef * factor and its bias is intercept * factor, the same factor on both. -/
theorem make_submodels_factor (base : Pipeline) (eps : ℝ) (n k : ℕ) (hk : k < n) :
    (make_submodels_from base eps n).get? k =
      some (perturb base (1 + ((k : ℝ) - 1) * eps)) ∧
    (perturb base (1 + ((k : ℝ) - 1) * eps)).lr.coef =
      base.lr.coef.map (fun c => c * (1 + ((k : ℝ) - 1) * eps)) ∧
    (perturb base (1 + ((k : ℝ) - 1) * eps)).lr.intercept =
      base.lr.intercept * (1 + ((k : ℝ) - 1) * eps) := by
  refine ⟨?_, rfl, rfl⟩
  rw [make_submodels_from, List.get?_map, List.get?_range hk, Option.map_some']

/-- Witness for make_submodels_factor at base = cbase, eps = 1, n = 5, k = 4. -/
theorem make_submodels_factor_witness :
    4 < 5 ∧
    ((make_submodels_from cbase 1 5).get? 4 =
      some (perturb cbase (1 + ((4 : ℝ) - 1) * 1)) ∧
    (perturb cbase (1 + ((4 : ℝ) - 1) * 1)).lr.coef =
      cbase.lr.coef.map (fun c => c * (1 + ((4 : ℝ) - 1) * 1)) ∧
    (perturb cbase (1 + ((4 : ℝ) - 1) * 1)).lr.intercept =
      cbase.lr.intercept * (1 + ((4 : ℝ) - 1) * 1)) := by
  refine ⟨by decide, ?_⟩
  have h := make_submodels_factor cbase 1 5 4 (by decide)
  have e : ((4 : ℕ) : ℝ) = (4 : ℝ) := by push_cast; ring
  rw [e] at h
  exact h

/-- C2 counterexample: with eps = 1 and count = 5 the member at k = 4 has
intercept 4 (factor 1 + (4-1)*1 = 4 over cbase intercept 1), while the
claimed centered formula 1 + (k - (count-1)/2)*eps gives intercept 3. -/
theorem make_submodels_centered_false :
    ((make_submodels_from cbase 1 5).get? 4).map (fun m => m.lr.intercept) = some 4 ∧
    cbase.lr.intercept * (1 + ((4 : ℝ) - ((5 : ℝ) - 1) / 2) * 1) = 3 ∧
    (4 : ℝ) ≠ 3 := by
  refine ⟨?_, by norm_num [cbase], by norm_num⟩
  rw [make_submodels_get cbase 1 5 4 (by decide), Option.map_some']
  have : (perturb cbase (1 + (((4 : ℕ) : ℝ) - 1) * 1)).lr.intercept =
      cbase.lr.intercept * (1 + (((4 : ℕ) : ℝ) - 1) * 1) := rfl
  rw [this]
  norm_num [cbase]

/-- C3 (amended): make_submodels_from performs no configuration validation:
for every eps and every count n it returns a member list of length n (empty
when n = 0) and never raises an invalid-configuration error. -/
theorem make_submodels_no_validation (base : Pipeline) (eps : ℝ) (n : ℕ) :
    (make_submodels_from base eps n).length = n := by
  rw [make_submodels_from, List.length_map, List.length_range]

/-- C3 counterexample: with eps = -1 (non-positive) and count = 2 (even),
make_submodels_from returns a 2-member list, its first member computed with
factor 1 + (0-1)*(-1) = 2, instead of failing. -/
theorem make_submodels_invalid_config_returns :
    (make_submodels_from cbase (-1) 2).length = 2 ∧
    ((make_submodels_from cbase (-1) 2).get? 0).map (fun m => m.lr.intercept) = some 2 := by
  refine ⟨by rw [make_submodels_from, List.length_map, List.length_range], ?_⟩
  rw [make_submodels_get cbase (-1) 2 0 (by decide), Option.map_some']
  have : (perturb cbase (1 + (((0 : ℕ) : ℝ) - 1) * (-1))).lr.intercept =
      cbase.lr.intercept * (1 + (((0 : ℕ) : ℝ) - 1) * (-1)) := rfl
  rw [this]
  norm_num [cbase]

/-- Helper: List.range 3 enumerated. -/
theorem range_three : List.range 3 = [0, 1, 2] := by decide

/-- C7: for count 3 and any eps > 0 the members are, in increasing order of
k, the base scaled by 1-eps, 1 and 1+eps, and the middle member's logistic
regression (classes, weight vector and bias) is identical to the base's. -/
theorem make_submodels_three (base : Pipeline) (eps : ℝ) (h : 0 < eps) :
    make_submodels_from base eps 3 =
      [perturb base (1 - eps), perturb base 1, perturb base (1 + eps)] ∧
    (perturb base 1).lr = base.lr := by
  constructor
  · rw [make_submodels_from, range_three]
    have c0 : perturb base (1 + (((0 : ℕ) : ℝ) - 1) * eps) = perturb base (1 - eps) :=
      congrArg (perturb base) (by push_cast; ring)
    have c1 : perturb base (1 + (((1 : ℕ) : ℝ) - 1) * eps) = perturb base 1 :=
      congrArg (perturb base) (by push_cast; ring)
    have c2 : perturb base (1 + (((2 : ℕ) : ℝ) - 1) * eps) = perturb base (1 + eps) :=
      congrArg (perturb base) (by push_cast; ring)
    rw [List.map_cons, List.map_cons, List.map_cons, List.map_nil, c0, c1, c2]
  · show LogisticRegression.mk base.lr.classes (base.lr.coef.map (fun c => c * 1))
        (base.lr.intercept * 1) = base.lr
    rw [mul_one]
    have : base.lr.coef.map (fun c => c * 1) = base.lr.coef := by
      simp [mul_one]
    rw [this]

/-- Witness for make_submodels_three at base = cbase, eps = 1. -/
theorem make_submodels_three_witness :
    (0 : ℝ) < 1 ∧
    (make_submodels_from cbase 1 3 =
      [perturb cbase (1 - 1), perturb cbase 1, perturb cbase (1 + 1)] ∧
    (perturb cbase 1).lr = cbase.lr) :=
  ⟨by norm_num, make_submodels_three cbase 1 (by norm_num)⟩

/-- C8 (amended): the default arguments of make_submodels_from are
eps = 0.03 and count = 3, so a default call returns the three members with
factors 0.97, 1 and 1.03. -/
theorem make_submodels_default_args (base : Pipeline) :
    make_submodels_from_default base = make_submodels_from base 0.03 3 ∧
    make_submodels_from_default base =
      [perturb base 0.97, perturb base 1, perturb base 1.03] := by
  refine ⟨rfl, ?_⟩
  rw [make_submodels_from_default, make_submodels_from, range_three]
  have c0 : perturb base (1 + (((0 : ℕ) : ℝ) - 1) * 0.03) = perturb base 0.97 :=
    congrArg (perturb base) (by push_cast; norm_num)
  have c1 : perturb base (1 + (((1 : ℕ) : ℝ) - 1) * 0.03) = perturb base 1 :=
    congrArg (perturb base) (by push_cast; norm_num)
  have c2 : perturb base (1 + (((2 : ℕ) : ℝ) - 1) * 0.03) = perturb base 1.03 :=
    congrArg (perturb base) (by push_cast; norm_num)
  rw [List.map_cons, List.map_cons, List.map_cons, List.map_nil, c0, c1, c2]

/-- C8 counterexample: a default call uses eps = 0.03, so member 0 of the
default ensemble over cbase has intercept 0.97; the claimed default eps of
0.04 would give 0.96 instead, and 0.97 is not 0.96. -/
theorem make_submodels_default_eps_003 :
    ((make_submodels_from_default cbase).get? 0).map (fun m => m.lr.intercept) = some 0.97 ∧
    cbase.lr.intercept * (1 + ((0 : ℝ) - 1) * 0.04) = 0.96 ∧
    (0.97 : ℝ) ≠ 0.96 := by
  refine ⟨?_, by norm_num [cbase], by norm_num⟩
  rw [make_submodels_from_default, make_submodels_get cbase 0.03 3 0 (by decide),
    Option.map_some']
  have : (perturb cbase (1 + (((0 : ℕ) : ℝ) - 1) * 0.03)).lr.intercept =
      cbase.lr.intercept * (1 + (((0 : ℕ) : ℝ) - 1) * 0.03) := rfl
  rw [this]
  norm_num [cbase]

/-- Helper: the length of a nonempty list is nonzero as a real. -/
theorem length_cast_ne_zero (l : List ℝ) (h : l ≠ []) : ((l.length : ℝ)) ≠ 0 := by
  have hp : 0 < l.length := List.length_pos.mpr h
  exact_mod_cast Nat.pos_iff_ne_zero.mp hp

/-- Helper: expansion of the sum of squared deviations from a fixed point. -/
theorem sum_map_sub_sq (mu : ℝ) (l : List ℝ) :
    (l.map (fun x => (x - mu) ^ 2)).sum
      = (l.map (fun x => x ^ 2)).sum - 2 * mu * l.sum + l.length * mu ^ 2 := by
  induction l with
  | nil => simp
  | cons a t ih =>
    simp only [List.map_cons, List.sum_cons, ih, List.length_cons]
    push_cast
    ring

/-- np.var agrees with the textbook population variance, the mean of the
squares minus the square of the mean, on every nonempty list. -/
theorem npVar_eq_popVar (l : List ℝ) (h : l ≠ []) : npVar l = popVar l := by
  have hn : ((l.length : ℝ)) ≠ 0 := length_cast_ne_zero l h
  rw [npVar, popVar, listMean, listMean, List.length_map, sum_map_sub_sq]
  field_simp
  ring

/-- Helper: the variance component returned by aggregate_probs is np.var. -/
theorem aggregate_probs_var (l : List ℝ) : (aggregate_probs l).2.2 = npVar l := by
  simp only [aggregate_probs]
  split <;> rfl

/-- Helper: the combined probability returned by aggregate_probs is the dot
product of the returned weights with the probabilities, in both branches. -/
theorem aggregate_probs_combined (l : List ℝ) :
    (aggregate_probs l).1 = (List.zipWith (fun a b => a * b) (aggregate_probs l).2.1 l).sum := by
  simp only [aggregate_probs]
  split <;> rfl

/-- Helper: in the high-variance branch the weights are uniform. -/
theorem aggregate_probs_weights_high (l : List ℝ) (h : npVar l > 0.02) :
    (aggregate_probs l).2.1 = List.replicate l.length (1 / (l.length : ℝ)) := by
  simp only [aggregate_probs]
  rw [if_pos h]
  exact List.map_const' l _

/-- Helper: in the low-variance branch the weights are the Gaussian kernel
values at the deviations from the mean, normalized by their sum. -/
theorem aggregate_probs_weights_low (l : List ℝ) (h : ¬ npVar l > 0.02) :
    (aggregate_probs l).2.1 =
      l.map (fun p => gaussKernel (listMean l) p / (l.map (gaussKernel (listMean l))).sum) := by
  simp only [aggregate_probs]
  rw [if_neg h]
  rw [List.map_map]
  rfl

/-- Helper: zipWith multiplication against a pointwise map of the same list
is a single map. -/
theorem zipWith_mul_map (f : ℝ → ℝ) (l : List ℝ) :
    List.zipWith (fun a b => a * b) (l.map f) l = l.map (fun x => f x * x) := by
  induction l with
  | nil => rfl
  | cons a t ih => simp only [List.map_cons, List.zipWith_cons_cons, ih]

/-- Helper: zipWith multiplication with a constant left list is a map. -/
theorem zipWith_mul_replicate (c : ℝ) (l : List ℝ) :
    List.zipWith (fun a b => a * b) (List.replicate l.length c) l = l.map (fun x => c * x) := by
  induction l with
  | nil => rfl
  | cons a t ih => simp only [List.length_cons, List.replicate_succ, List.zipWith_cons_cons,
      List.map_cons, ih]

/-- Helper: sum of a pointwise division is the division of the sum. -/
theorem sum_map_div (l : List ℝ) (f : ℝ → ℝ) (S : ℝ) :
    (l.map (fun x => f x / S)).sum = (l.map f).sum / S := by
  simp only [div_eq_mul_inv]
  exact List.sum_map_mul_right l f S⁻¹

/-- Helper: the sum of a strictly positive function over a nonempty list is
strictly positive. -/
theorem sum_map_pos (l : List ℝ) (f : ℝ → ℝ) (h : l ≠ []) (hf : ∀ x ∈ l, 0 < f x) :
    0 < (l.map f).sum := by
  refine List.sum_pos _ ?_ ?_
  · intro a ha
    obtain ⟨x, hx, rfl⟩ := List.mem_map.mp ha
    exact hf x hx
  · simpa using h

/-- C1: on every nonempty submodel list and every feature vector,
ensemble_predict_proba reports the member probabilities, their population
variance, weights that are uniform 1/count when the variance exceeds 0.02
and normalized Gaussian-kernel weights otherwise, and a combined
probability equal to the weighted sum of the member probabilities. -/
theorem ensemble_aggregation (submodels : List Pipeline) (x : List ℝ)
    (hne : submodels ≠ []) :
    (ensemble_predict_proba submodels x).2.1 = submodels.map (fun m => predict_proba1 m x) ∧
    (ensemble_predict_proba submodels x).2.2.2 =
      popVar (submodels.map (fun m => predict_proba1 m x)) ∧
    ((ensemble_predict_proba submodels x).2.2.2 > 0.02 →
      (ensemble_predict_proba submodels x).2.2.1 =
        List.replicate submodels.length (1 / (submodels.length : ℝ))) ∧
    ((ensemble_predict_proba submodels x).2.2.2 ≤ 0.02 →
      (ensemble_predict_proba submodels x).2.2.1 =
        (submodels.map (fun m => predict_proba1 m x)).map
          (fun p => gaussKernel (listMean (submodels.map (fun m => predict_proba1 m x))) p /
            ((submodels.map (fun m => predict_proba1 m x)).map
              (gaussKernel (listMean (submodels.map (fun m => predict_proba1 m x))))).sum)) ∧
    (ensemble_predict_proba submodels x).1 =
      (List.zipWith (fun a b => a * b) (ensemble_predict_proba submodels x).2.2.1
        (submodels.map (fun m => predict_proba1 m x))).sum := by
  have hpne : submodels.map (fun m => predict_proba1 m x) ≠ [] := by
    simpa using hne
  have h21 : (ensemble_predict_proba submodels x).2.1 =
      submodels.map (fun m => predict_proba1 m x) := rfl
  have hv : (ensemble_predict_proba submodels x).2.2.2 =
      npVar (submodels.map (fun m => predict_proba1 m x)) :=
    aggregate_probs_var _
  have hw : (ensemble_predict_proba submodels x).2.2.1 =
      (aggregate_probs (submodels.map (fun m => predict_proba1 m x))).2.1 := rfl
  have hc : (ensemble_predict_proba submodels x).1 =
      (aggregate_probs (submodels.map (fun m => predict_proba1 m x))).1 := rfl
  refine ⟨h21, ?_, ?_, ?_, ?_⟩
  · rw [hv, npVar_eq_popVar _ hpne]
  · intro hgt
    rw [hv] at hgt
    rw [hw, aggregate_probs_weights_high _ hgt, List.length_map]
  · intro hle
    rw [hv] at hle
    have : ¬ npVar (submodels.map (fun m => predict_proba1 m x)) > 0.02 := not_lt.mpr hle
    rw [hw, aggregate_probs_weights_low _ this]
  · rw [hc, hw, aggregate_probs_combined]

/-- Witness for ensemble_aggregation on the one-member ensemble of cbase at
the feature vector with the single entry 0. -/
theorem ensemble_aggregation_witness :
    ([cbase] : List Pipeline) ≠ [] ∧
    ((ensemble_predict_proba [cbase] [0]).2.1 = [cbase].map (fun m => predict_proba1 m [0]) ∧
    (ensemble_predict_proba [cbase] [0]).2.2.2 =
      popVar ([cbase].map (fun m => predict_proba1 m [0])) ∧
    ((ensemble_predict_proba [cbase] [0]).2.2.2 > 0.02 →
      (ensemble_predict_proba [cbase] [0]).2.2.1 =
        List.replicate ([cbase] : List Pipeline).length (1 / (([cbase] : List Pipeline).length : ℝ))) ∧
    ((ensemble_predict_proba [cbase] [0]).2.2.2 ≤ 0.02 →
      (ensemble_predict_proba [cbase] [0]).2.2.1 =
        ([cbase].map (fun m => predict_proba1 m [0])).map
          (fun p => gaussKernel (listMean ([cbase].map (fun m => predict_proba1 m [0]))) p /
            (([cbase].map (fun m => predict_proba1 m [0])).map
              (gaussKernel (listMean ([cbase].map (fun m => predict_proba1 m [0]))))).sum)) ∧
    (ensemble_predict_proba [cbase] [0]).1 =
      (List.zipWith (fun a b => a * b) (ensemble_predict_proba [cbase] [0]).2.2.1
        ([cbase].map (fun m => predict_proba1 m [0]))).sum) :=
  ⟨by simp, ensemble_aggregation [cbase] [0] (by simp)⟩

/-- C5: for every nonempty list of member probabilities bounded below by lo
and above by hi (in particular lo = min and hi = max of the list, or lo = 0
and hi = 1), the weights returned by the aggregator sum to 1 and the
combined probability stays between lo and hi: it is a convex combination of
the member probabilities. -/
theorem aggregate_probs_convex (probs : List ℝ) (hne : probs ≠ []) (lo hi : ℝ)
    (hb : ∀ p ∈ probs, lo ≤ p ∧ p ≤ hi) :
    (aggregate_probs probs).2.1.sum = 1 ∧
    lo ≤ (aggregate_probs probs).1 ∧ (aggregate_probs probs).1 ≤ hi := by
  have hn : ((probs.length : ℝ)) ≠ 0 := length_cast_ne_zero probs hne
  have hnpos : (0 : ℝ) < probs.length := by
    have := List.length_pos.mpr hne
    exact_mod_cast this
  rw [aggregate_probs_combined]
  by_cases hv : npVar probs > 0.02
  · rw [aggregate_probs_weights_high probs hv]
    have hsumw : (List.replicate probs.length (1 / (probs.length : ℝ))).sum = 1 := by
      rw [List.sum_replicate, nsmul_eq_mul, mul_one_div, div_self hn]
    refine ⟨hsumw, ?_, ?_⟩
    · rw [zipWith_mul_replicate]
      have step : (probs.map (fun _ => 1 / (probs.length : ℝ) * lo)).sum ≤
          (probs.map (fun x => 1 / (probs.length : ℝ) * x)).sum := by
        refine List.sum_le_sum ?_
        intro p hp
        exact mul_le_mul_of_nonneg_left (hb p hp).1 (by positivity)
      have base : (probs.map (fun _ => 1 / (probs.length : ℝ) * lo)).sum = lo := by
        rw [List.map_const', List.sum_replicate, nsmul_eq_mul]
        field_simp
      linarith [step, base.ge]
    · rw [zipWith_mul_replicate]
      have step : (probs.map (fun x => 1 / (probs.length : ℝ) * x)).sum ≤
          (probs.map (fun _ => 1 / (probs.length : ℝ) * hi)).sum := by
        refine List.sum_le_sum ?_
        intro p hp
        exact mul_le_mul_of_nonneg_left (hb p hp).2 (by positivity)
      have base : (probs.map (fun _ => 1 / (probs.length : ℝ) * hi)).sum = hi := by
        rw [List.map_const', List.sum_replicate, nsmul_eq_mul]
        field_simp
      linarith [step, base.le]
  · rw [aggregate_probs_weights_low probs hv]
    have hS : 0 < (probs.map (gaussKernel (listMean probs))).sum :=
      sum_map_pos probs _ hne (fun p _ => Real.exp_pos _)
    have hwf : ∀ p ∈ probs,
        0 ≤ gaussKernel (listMean probs) p / (probs.map (gaussKernel (listMean probs))).sum :=
      fun p _ => div_nonneg (Real.exp_pos _).le hS.le
    have hsumw : (probs.map (fun p =>
        gaussKernel (listMean probs) p / (probs.map (gaussKernel (listMean probs))).sum)).sum = 1 := by
      rw [sum_map_div, div_self (ne_of_gt hS)]
    refine ⟨hsumw, ?_, ?_⟩
    · rw [zipWith_mul_map]
      have step : (probs.map (fun p =>
          (gaussKernel (listMean probs) p / (probs.map (gaussKernel (listMean probs))).sum) * lo)).sum ≤
          (probs.map (fun p =>
          (gaussKernel (listMean probs) p / (probs.map (gaussKernel (listMean probs))).sum) * p)).sum := by
        refine List.sum_le_sum ?_
        intro p hp
        exact mul_le_mul_of_nonneg_left (hb p hp).1 (hwf p hp)
      have base : (probs.map (fun p =>
          (gaussKernel (listMean probs) p / (probs.map (gaussKernel (listMean probs))).sum) * lo)).sum
          = lo := by
        rw [List.sum_map_mul_right, hsumw, one_mul]
      linarith [step, base.ge]
    · rw [zipWith_mul_map]
      have step : (probs.map (fun p =>
          (gaussKernel (listMean probs) p / (probs.map (gaussKernel (listMean probs))).sum) * p)).sum ≤
          (probs.map (fun p =>
          (gaussKernel (listMean probs) p / (probs.map (gaussKernel (listMean probs))).sum) * hi)).sum := by
        refine List.sum_le_sum ?_
        intro p hp
        exact mul_le_mul_of_nonneg_left (hb p hp).2 (hwf p hp)
      have base : (probs.map (fun p =>
          (gaussKernel (listMean probs) p / (probs.map (gaussKernel (listMean probs))).sum) * hi)).sum
          = hi := by
        rw [List.sum_map_mul_right, hsumw, one_mul]
      linarith [step, base.le]

/-- Witness for aggregate_probs_convex on the probability list
with entries 0 and 1, bounded by 0 and 1. -/
theorem aggregate_probs_convex_witness :
    ([(0 : ℝ), 1] ≠ []) ∧
    ((aggregate_probs [(0 : ℝ), 1]).2.1.sum = 1 ∧
    (0 : ℝ) ≤ (aggregate_probs [(0 : ℝ), 1]).1 ∧ (aggregate_probs [(0 : ℝ), 1]).1 ≤ 1) :=
  ⟨by simp, aggregate_probs_convex [0, 1] (by simp) 0 1 (by
    intro p hp
    rcases List.mem_cons.mp hp with h | h
    · subst h; norm_num
    · rcases List.mem_singleton.mp h with rfl; norm_num)⟩

/-- Helper: the mean of a nonempty constant list is the constant. -/
theorem listMean_replicate (n : ℕ) (p : ℝ) (hn : ((n : ℝ)) ≠ 0) :
    listMean (List.replicate n p) = p := by
  rw [listMean, List.sum_replicate, List.length_replicate, nsmul_eq_mul,
    mul_div_cancel_left₀ p hn]

/-- C6: when all member probabilities equal p (nonempty list), the variance
is 0, the Gaussian-kernel normalizer is the strictly positive member count
(no division by zero), the normalized weights are the uniform 1/count, and
the combined probability is exactly p. -/
theorem aggregate_probs_identical (probs : List ℝ) (p : ℝ) (hne : probs ≠ [])
    (hall : ∀ q ∈ probs, q = p) :
    (aggregate_probs probs).2.2 = 0 ∧
    0 < (probs.map (gaussKernel (listMean probs))).sum ∧
    (aggregate_probs probs).2.1 = List.replicate probs.length (1 / (probs.length : ℝ)) ∧
    (aggregate_probs probs).1 = p := by
  have hn : ((probs.length : ℝ)) ≠ 0 := length_cast_ne_zero probs hne
  have hrep : probs = List.replicate probs.length p := List.eq_replicate_of_mem hall
  have hmean : listMean probs = p := by
    have hsum : probs.sum = probs.length * p := by
      conv_lhs => rw [hrep]
      rw [List.sum_replicate, nsmul_eq_mul]
    rw [listMean, hsum, mul_div_cancel_left₀ p hn]
  have hgk : gaussKernel p p = 1 := by
    rw [gaussKernel]
    have harg : (-(p - p) ^ 2 / (2 * 0.0025) : ℝ) = 0 := by ring
    rw [harg, Real.exp_zero]
  have hvar : npVar probs = 0 := by
    rw [npVar, hmean]
    have hdevs : probs.map (fun x => (x - p) ^ 2) = List.replicate probs.length 0 := by
      refine List.eq_replicate.mpr ⟨by rw [List.length_map], ?_⟩
      intro b hb
      obtain ⟨q, hq, rfl⟩ := List.mem_map.mp hb
      rw [hall q hq]
      ring
    rw [hdevs, listMean_replicate _ _ hn]
  have hnotgt : ¬ npVar probs > 0.02 := by
    rw [hvar]; norm_num
  have hcent : probs.map (gaussKernel (listMean probs)) = List.replicate probs.length 1 := by
    refine List.eq_replicate.mpr ⟨by rw [List.length_map], ?_⟩
    intro b hb
    obtain ⟨q, hq, rfl⟩ := List.mem_map.mp hb
    rw [hmean, hall q hq, hgk]
  have hS : (probs.map (gaussKernel (listMean probs))).sum = (probs.length : ℝ) := by
    rw [hcent, List.sum_replicate, nsmul_eq_mul, mul_one]
  have hSpos : 0 < (probs.map (gaussKernel (listMean probs))).sum := by
    rw [hS]
    have := List.length_pos.mpr hne
    exact_mod_cast this
  have hw : (aggregate_probs probs).2.1 =
      List.replicate probs.length (1 / (probs.length : ℝ)) := by
    rw [aggregate_probs_weights_low probs hnotgt]
    refine List.eq_replicate.mpr ⟨by rw [List.length_map], ?_⟩
    intro b hb
    obtain ⟨q, hq, rfl⟩ := List.mem_map.mp hb
    rw [hS, hmean, hall q hq, hgk]
  refine ⟨by rw [aggregate_probs_var, hvar], hSpos, hw, ?_⟩
  rw [aggregate_probs_combined, hw, zipWith_mul_replicate]
  have hprod : probs.map (fun x => 1 / (probs.length : ℝ) * x) =
      List.replicate probs.length (1 / (probs.length : ℝ) * p) := by
    refine List.eq_replicate.mpr ⟨by rw [List.length_map], ?_⟩
    intro b hb
    obtain ⟨q, hq, rfl⟩ := List.mem_map.mp hb
    rw [hall q hq]
  rw [hprod, List.sum_replicate, nsmul_eq_mul, ← mul_assoc, mul_one_div, div_self hn, one_mul]

/-- Witness for aggregate_probs_identical on the two-member list with both
probabilities one half. -/
theorem aggregate_probs_identical_witness :
    ([(1 : ℝ) / 2, 1 / 2] ≠ []) ∧
    ((aggregate_probs [(1 : ℝ) / 2, 1 / 2]).2.2 = 0 ∧
    0 < (([(1 : ℝ) / 2, 1 / 2]).map (gaussKernel (listMean [(1 : ℝ) / 2, 1 / 2]))).sum ∧
    (aggregate_probs [(1 : ℝ) / 2, 1 / 2]).2.1 =
      List.replicate ([(1 : ℝ) / 2, 1 / 2]).length (1 / (([(1 : ℝ) / 2, 1 / 2]).length : ℝ)) ∧
    (aggregate_probs [(1 : ℝ) / 2, 1 / 2]).1 = 1 / 2) :=
  ⟨by simp, aggregate_probs_identical [1 / 2, 1 / 2] (1 / 2) (by simp) (by
    intro q hq
    rcases List.mem_cons.mp hq with h | h
    · exact h
    · exact List.mem_singleton.mp h)⟩

/-- Helper: noiseMap applies x * (1 + scale * g (start + i)) at position i. -/
theorem noiseMap_get (scale : ℝ) (g : ℕ → ℝ) (l : List ℝ) :
    ∀ (j i : ℕ), (noiseMap scale g j l).get? i =
      (l.get? i).map (fun x => x * (1 + scale * g (j + i))) := by
  induction l with
  | nil => intro j i; rfl
  | cons a t ih =>
    intro j i
    cases i with
    | zero => rfl
    | succ i =>
      have := ih (j + 1) i
      simp only [noiseMap, List.get?_cons_succ, this]
      have harg : j + 1 + i = j + (i + 1) := by omega
      rw [harg]

/-- Helper: noiseMap preserves the length of the vector. -/
theorem noiseMap_length (scale : ℝ) (g : ℕ → ℝ) (l : List ℝ) :
    ∀ j : ℕ, (noiseMap scale g j l).length = l.length := by
  induction l with
  | nil => intro j; rfl
  | cons a t ih =>
    intro j
    simp only [noiseMap, List.length_cons, ih (j + 1)]

/-- C4: inject_noise returns the input values unchanged when pct <= 0; for
pct > 0 (with no clamp, also above 100) it multiplies entry i of the vector
by 1 + g_i where g_i is pct/100 times the i-th standard-normal draw of the
supplied random source, the source with the fixed default seed 123 being
used when none is supplied; a call without a source equals the call with
the default seed, and the output length always equals the input length. -/
theorem inject_noise_spec (gauss : ℕ → ℕ → ℝ) (X : List ℝ) (pct : ℝ) (rng : Option ℕ) :
    (pct ≤ 0 → inject_noise gauss X pct rng = X) ∧
    (0 < pct → ∀ i, (inject_noise gauss X pct rng).get? i =
      (X.get? i).map (fun x => x * (1 + pct / 100 * gauss (rng.getD (seed_rng 123)) i))) ∧
    inject_noise gauss X pct none = inject_noise gauss X pct (some (seed_rng 123)) ∧
    (inject_noise gauss X pct rng).length = X.length := by
  refine ⟨?_, ?_, rfl, ?_⟩
  · intro h
    rw [inject_noise, if_pos h]
  · intro h i
    rw [inject_noise, if_neg (not_le.mpr h), noiseMap_get]
    simp only [Nat.zero_add]
  · by_cases h : pct ≤ 0
    · rw [inject_noise, if_pos h]
    · rw [inject_noise, if_neg h, noiseMap_length]

/-- Witness for inject_noise_spec: with the constant standard-normal stream
1, pct = 150 (above 100) sends the vector [2] to [5] = [2 * (1 + 1.5)], and
pct = 0 returns [2] unchanged. -/
theorem inject_noise_spec_witness :
    ((0 : ℝ) ≤ 0 ∧ inject_noise (fun _ _ => 1) [2] 0 none = [2]) ∧
    ((0 : ℝ) < 150 ∧ (inject_noise (fun _ _ => 1) [2] 150 none).get? 0 = some 5) := by
  constructor
  · exact ⟨le_refl 0, (inject_noise_spec (fun _ _ => 1) [2] 0 none).1 (le_refl 0)⟩
  · refine ⟨by norm_num, ?_⟩
    have h := (inject_noise_spec (fun _ _ => 1) [2] 150 none).2.1 (by norm_num) 0
    rw [h]
    norm_num

/-- C10 counterexample: on the empty member list the aggregator's combined
probability is the finite value 0.0 (the dot product of empty arrays), not
a non-finite value; the variance it returns is indeed NaN. -/
theorem aggregateF_empty_combined_finite :
    (ensemble_predict_probaF []).1 = NpF.fin 0 ∧
    (ensemble_predict_probaF []).1 ≠ NpF.nan ∧
    (ensemble_predict_probaF []).2.2.2 = NpF.nan := by
  have hvar : npVarF [] = NpF.nan := by
    simp [npVarF, meanF, sumF, lenF, divF]
  refine ⟨?_, ?_, ?_⟩ <;>
    simp [ensemble_predict_probaF, hvar, gtF, dotF, sumF]

/-- C10 (amended): on the empty member list the aggregator raises no error:
the variance is NaN (0/0), the NaN > 0.02 test is false so the low-variance
branch is taken, the element-wise normalization of the empty kernel array by
its zero sum performs no division and yields the empty weight list, and the
returned combined probability is exactly the finite 0.0. -/
theorem aggregateF_empty :
    ensemble_predict_probaF [] = (NpF.fin 0, [], [], NpF.nan) ∧
    gtF (npVarF []) 0.02 = false ∧
    sumF ([].map (fun p =>
      expF (divF (negF (sqF (subF p (meanF [])))) (NpF.fin (2 * 0.0025))))) = NpF.fin 0 := by
  have hvar : npVarF [] = NpF.nan := by
    simp [npVarF, meanF, sumF, lenF, divF]
  refine ⟨?_, by rw [hvar]; rfl, by simp [sumF]⟩
  simp [ensemble_predict_probaF, hvar, gtF, dotF, sumF]

/-- Helper: the store after the two array copies of one builder iteration. -/
def allocTwo (s : Store) (base : HPipeline) : Store :=
  (allocA (allocA s (readA s base.meanRef)).1
    (readA (allocA s (readA s base.meanRef)).1 base.scaleRef)).1

/-- Helper: allocTwo advances next by two. -/
theorem allocTwo_next (s : Store) (base : HPipeline) :
    (allocTwo s base).next = s.next + 1 + 1 := rfl

/-- Helper: allocTwo leaves previously allocated cells untouched. -/
theorem allocTwo_mem_lt (s : Store) (base : HPipeline) (r : ℕ) (hr : r < s.next) :
    (allocTwo s base).mem r = s.mem r := by
  show (if r = s.next + 1 then _ else if r = s.next then _ else s.mem r) = s.mem r
  rw [if_neg (by omega), if_neg (by omega)]

/-- Helper: the first fresh cell of allocTwo holds a copy of the base mean
array. -/
theorem allocTwo_mem_fresh1 (s : Store) (base : HPipeline) :
    (allocTwo s base).mem s.next = s.mem base.meanRef := by
  show (if s.next = s.next + 1 then _ else if s.next = s.next then readA s base.meanRef else _)
      = s.mem base.meanRef
  rw [if_neg (by omega), if_pos rfl]
  rfl

/-- Helper: the second fresh cell of allocTwo holds a copy of the base scale
array, provided the base scale reference was already allocated. -/
theorem allocTwo_mem_fresh2 (s : Store) (base : HPipeline) (hbs : base.scaleRef < s.next) :
    (allocTwo s base).mem (s.next + 1) = s.mem base.scaleRef := by
  show (if s.next + 1 = s.next + 1 then
      (if base.scaleRef = s.next then readA s base.meanRef else s.mem base.scaleRef)
    else _) = _
  rw [if_pos rfl, if_neg (by omega)]

/-- Helper: one unfolding step of the builder loop. -/
theorem buildMembers_succ (base : HPipeline) (eps : ℝ) (k m : ℕ) (s : Store) :
    buildMembers base eps k (m + 1) s =
      ((buildMembers base eps (k + 1) m (allocTwo s base)).1,
        { meanRef := s.next, scaleRef := s.next + 1, classes := base.classes
          coef := base.coef.map (fun c => c * (1 + ((k : ℝ) - 1) * eps))
          intercept := base.intercept * (1 + ((k : ℝ) - 1) * eps) } ::
        (buildMembers base eps (k + 1) m (allocTwo s base)).2) := rfl

/-- Helper: invariants of the builder loop in the store model. The final
store extends the initial one (next grows, contents below the old next are
untouched), every produced member holds fresh references at or above the
old next, and (when the base references are valid) those references hold
copies of the base arrays as they were when the builder started. -/
theorem buildMembers_spec (base : HPipeline) (eps : ℝ) :
    ∀ (m k : ℕ) (s : Store),
      s.next ≤ (buildMembers base eps k m s).1.next ∧
      (∀ r, r < s.next → (buildMembers base eps k m s).1.mem r = s.mem r) ∧
      (∀ p ∈ (buildMembers base eps k m s).2,
        s.next ≤ p.meanRef ∧ s.next ≤ p.scaleRef ∧
        (base.meanRef < s.next → base.scaleRef < s.next →
          (buildMembers base eps k m s).1.mem p.meanRef = s.mem base.meanRef ∧
          (buildMembers base eps k m s).1.mem p.scaleRef = s.mem base.scaleRef)) := by
  intro m
  induction m with
  | zero =>
    intro k s
    refine ⟨le_refl _, fun r _ => rfl, fun p hp => absurd hp (List.not_mem_nil p)⟩
  | succ m ih =>
    intro k s
    obtain ⟨ihnext, ihmem, ihmembers⟩ := ih (k + 1) (allocTwo s base)
    rw [allocTwo_next] at ihnext
    have hfst : (buildMembers base eps k (m + 1) s).1 =
        (buildMembers base eps (k + 1) m (allocTwo s base)).1 := by
      rw [buildMembers_succ]
    have hsnd : (buildMembers base eps k (m + 1) s).2 =
        { meanRef := s.next, scaleRef := s.next + 1, classes := base.classes
          coef := base.coef.map (fun c => c * (1 + ((k : ℝ) - 1) * eps))
          intercept := base.intercept * (1 + ((k : ℝ) - 1) * eps) } ::
        (buildMembers base eps (k + 1) m (allocTwo s base)).2 := by
      rw [buildMembers_succ]
    refine ⟨?_, ?_, ?_⟩
    · rw [hfst]; omega
    · intro r hr
      rw [hfst, ihmem r (by rw [allocTwo_next]; omega), allocTwo_mem_lt s base r hr]
    · intro p hp
      rw [hsnd] at hp
      rcases List.mem_cons.mp hp with hphead | hptail
      · subst hphead
        refine ⟨le_refl _, by show s.next ≤ s.next + 1; omega, ?_⟩
        intro hbm hbs
        constructor
        · rw [hfst]
          show (buildMembers base eps (k + 1) m (allocTwo s base)).1.mem s.next
              = s.mem base.meanRef
          rw [ihmem s.next (by rw [allocTwo_next]; omega), allocTwo_mem_fresh1]
        · rw [hfst]
          show (buildMembers base eps (k + 1) m (allocTwo s base)).1.mem (s.next + 1)
              = s.mem base.scaleRef
          rw [ihmem (s.next + 1) (by rw [allocTwo_next]; omega),
            allocTwo_mem_fresh2 s base hbs]
      · obtain ⟨hm1, hm2, hcopy⟩ := ihmembers p hptail
        rw [allocTwo_next] at hm1 hm2
        refine ⟨by omega, by omega, ?_⟩
        intro hbm hbs
        obtain ⟨hc1, hc2⟩ := hcopy (by rw [allocTwo_next]; omega) (by rw [allocTwo_next]; omega)
        exact ⟨by rw [hfst, hc1, allocTwo_mem_lt s base base.meanRef hbm],
          by rw [hfst, hc2, allocTwo_mem_lt s base base.scaleRef hbs]⟩

/-- C9: every member produced by the builder holds deep copies of the
baseline scaler arrays: after the builder returns, overwriting the arrays
behind the baseline's mean and scale references (with any contents v and w)
leaves every member's dereferenced mean and scale arrays, and hence every
member's predicted probability on any fixed vector, unchanged; moreover the
members' arrays hold exactly the baseline's original mean and scale values. -/
theorem ensemble_members_deep_copy (s : Store) (base : HPipeline) (eps : ℝ) (n : ℕ)
    (hm : base.meanRef < s.next) (hs : base.scaleRef < s.next) :
    ∀ p ∈ (make_submodels_heap s base eps n).2, ∀ v w x : List ℝ,
      readA (writeA (writeA (make_submodels_heap s base eps n).1 base.meanRef v)
          base.scaleRef w) p.meanRef
        = readA (make_submodels_heap s base eps n).1 p.meanRef ∧
      readA (writeA (writeA (make_submodels_heap s base eps n).1 base.meanRef v)
          base.scaleRef w) p.scaleRef
        = readA (make_submodels_heap s base eps n).1 p.scaleRef ∧
      predictH (writeA (writeA (make_submodels_heap s base eps n).1 base.meanRef v)
          base.scaleRef w) p x
        = predictH (make_submodels_heap s base eps n).1 p x ∧
      readA (make_submodels_heap s base eps n).1 p.meanRef = readA s base.meanRef ∧
      readA (make_submodels_heap s base eps n).1 p.scaleRef = readA s base.scaleRef := by
  obtain ⟨hnext, hlow, hmembers⟩ := buildMembers_spec base eps n 0 s
  intro p hp v w x
  obtain ⟨hpm, hps, hcopy⟩ := hmembers p hp
  obtain ⟨hc1, hc2⟩ := hcopy hm hs
  have h1 : readA (writeA (writeA (make_submodels_heap s base eps n).1 base.meanRef v)
      base.scaleRef w) p.meanRef
      = readA (make_submodels_heap s base eps n).1 p.meanRef := by
    show (if p.meanRef = base.scaleRef then w
      else if p.meanRef = base.meanRef then v
      else (make_submodels_heap s base eps n).1.mem p.meanRef)
      = (make_submodels_heap s base eps n).1.mem p.meanRef
    rw [if_neg (by omega), if_neg (by omega)]
  have h2 : readA (writeA (writeA (make_submodels_heap s base eps n).1 base.meanRef v)
      base.scaleRef w) p.scaleRef
      = readA (make_submodels_heap s base eps n).1 p.scaleRef := by
    show (if p.scaleRef = base.scaleRef then w
      else if p.scaleRef = base.meanRef then v
      else (make_submodels_heap s base eps n).1.mem p.scaleRef)
      = (make_submodels_heap s base eps n).1.mem p.scaleRef
    rw [if_neg (by omega), if_neg (by omega)]
  refine ⟨h1, h2, ?_, hc1, hc2⟩
  rw [predictH, predictH, h1, h2]

/-- Concrete store fixture: two allocated arrays, the baseline mean at
address 0 and the baseline scale at address 1. -/
def s0 : Store :=
  { next := 2, mem := fun r => if r = 0 then [0] else if r = 1 then [1] else [] }

/-- Concrete baseline in the store model, matching cbase with its scaler
arrays behind references 0 and 1. -/
def cbaseH : HPipeline :=
  { meanRef := 0, scaleRef := 1, classes := [0, 1], coef := [2], intercept := 1 }

/-- Witness for ensemble_members_deep_copy on the concrete store s0 and
baseline cbaseH with eps = 1 and three members. -/
theorem ensemble_members_deep_copy_witness :
    cbaseH.meanRef < s0.next ∧ cbaseH.scaleRef < s0.next ∧
    (∀ p ∈ (make_submodels_heap s0 cbaseH 1 3).2, ∀ v w x : List ℝ,
      readA (writeA (writeA (make_submodels_heap s0 cbaseH 1 3).1 cbaseH.meanRef v)
          cbaseH.scaleRef w) p.meanRef
        = readA (make_submodels_heap s0 cbaseH 1 3).1 p.meanRef ∧
      readA (writeA (writeA (make_submodels_heap s0 cbaseH 1 3).1 cbaseH.meanRef v)
          cbaseH.scaleRef w) p.scaleRef
        = readA (make_submodels_heap s0 cbaseH 1 3).1 p.scaleRef ∧
      predictH (writeA (writeA (make_submodels_heap s0 cbaseH 1 3).1 cbaseH.meanRef v)
          cbaseH.scaleRef w) p x
        = predictH (make_submodels_heap s0 cbaseH 1 3).1 p x ∧
      readA (make_submodels_heap s0 cbaseH 1 3).1 p.meanRef = readA s0 cbaseH.meanRef ∧
      readA (make_submodels_heap s0 cbaseH 1 3).1 p.scaleRef = readA s0 cbaseH.scaleRef) :=
  ⟨by decide, by decide, ensemble_members_deep_copy s0 cbaseH 1 3 (by decide) (by decide)⟩
